import Mathlib

/-!
Verification of the remark-code-import core (src/index.ts).

The source is a remark plugin whose transformer, for each fenced code block
whose metadata carries a token starting with "file=", parses the token with
the regular expression

  ^file=(?<path>.+?)(?:(?:#(?:L(?<from>\d+)(?<dash>-)?)?)(?:L(?<to>\d+))?)?$

resolves the captured path against the document directory and a configured
root directory, reads the file, and replaces the block value with the slice
computed by extractLines.  Everything below is a shallow embedding of that
code: strings are Lean Strings, JavaScript string splitting is modelled on
the underlying character lists, os.EOL is the single character newline of
the POSIX host the tests run on, and the regular expression is modelled by
an explicit backtracking matcher that follows the lazy/greedy choices the
JS engine makes on this particular pattern.
-/

namespace RemarkCodeImport

/-! ## Character classes used by the regular expression -/

/-- The JS digit class d: exactly the ASCII digits. -/
def isDig (c : Char) : Bool := 0x30 ≤ c.toNat && c.toNat ≤ 0x39

/-- The JS dot class: any character except line terminators
(newline, carriage return, U+2028, U+2029). -/
def dotClass (c : Char) : Bool :=
  !(c == '\n' || c == '\r' || c.toNat == 0x2028 || c.toNat == 0x2029)

/-- Numeric value of one ASCII digit. -/
def digitVal (c : Char) : Nat := c.toNat - 0x30

/-- parseInt(ds, 10) on a nonempty all-digit string. -/
def digitsVal (ds : List Char) : Nat := ds.foldl (fun a c => a * 10 + digitVal c) 0

/-! ## JavaScript String.prototype.split with a single-character separator -/

/-- content.split(sep) for a one-character separator, on character lists.
Always returns a nonempty list of separator-free chunks. -/
def splitOnChar (sep : Char) : List Char → List (List Char)
  | [] => [[]]
  | c :: rest =>
    if c = sep then [] :: splitOnChar sep rest
    else
      match splitOnChar sep rest with
      | [] => [[c]]
      | l :: ls => (c :: l) :: ls

/-- chunks.join(sep) for a one-character separator, on character lists. -/
def joinWith (sep : Char) : List (List Char) → List Char
  | [] => []
  | [l] => l
  | l :: ls => l ++ sep :: joinWith sep ls

/-- content.split(EOL) with EOL = newline (the POSIX os.EOL). -/
def splitNl (l : List Char) : List (List Char) := splitOnChar '\n' l

/-- lines.join(String.fromCharCode 10). -/
def joinNl (ls : List (List Char)) : List Char := joinWith '\n' ls

/-! ## extractLines (src/index.ts lines 17-37) -/

/-- Line 25 of src/index.ts: const start = fromLine || 1.  The JS truthiness
test makes both an absent capture and the value 0 fall back to 1. -/
def jsStart (fromLine : Option Nat) : Nat :=
  if fromLine.getD 0 = 0 then 1 else fromLine.getD 0

/-- Lines 26-35 of src/index.ts: the inclusive end line.  "else if (toLine)"
is a truthiness test, so toLine = 0 behaves like an absent capture. -/
def jsStop (lines : List (List Char)) (start : Nat) (hasDash : Bool)
    (toLine : Option Nat) (preserveTrailingNewline : Bool) : Nat :=
  if hasDash = false then start
  else if toLine.getD 0 ≠ 0 then toLine.getD 0
  else if lines.getLast? = some [] ∧ preserveTrailingNewline = false then lines.length - 1
  else lines.length

/-- Shallow embedding of extractLines (src/index.ts lines 17-37):
lines.slice(start - 1, end).join(newline). -/
def extractLines (content : String) (fromLine : Option Nat) (hasDash : Bool)
    (toLine : Option Nat) (preserveTrailingNewline : Bool := false) : String :=
  String.mk (joinNl (((splitNl content.data).take
    (jsStop (splitNl content.data) (jsStart fromLine) hasDash toLine
      preserveTrailingNewline)).drop (jsStart fromLine - 1)))

/-! ## The reference regular expression (src/index.ts lines 68-71)

The pattern is anchored on both sides.  After the literal "file=" the lazy
group (?<path>.+?) tries ever longer nonempty prefixes; for each candidate
the rest of the input must be consumed by

  (?:(?:#(?:L(?<from>\d+)(?<dash>-)?)?)(?:L(?<to>\d+))?)?$

The three functions below implement exactly the backtracking choices the JS
engine explores on this pattern: matchToEnd is the trailing
(?:L(?<to>\d+))?$ part, matchAfterHash is what may follow a '#', and
matchTail is the whole optional group.  The dollar anchor is modelled as
end-of-input: metadata tokens come from one fence line and never carry the
trailing newline that would let a non-multiline dollar match one position
early. -/

/-- Captures of the line-spec part of the pattern: from, dash present, to. -/
abbrev Caps := Option Nat × Bool × Option Nat

/-- Matching (?:L(?<to>\d+))?$ against the rest of the input: either the rest
is empty, or it is L followed by digits running to the end of the input.
Shortening the greedy digit run can never help (the next token would have to
be the end of input), so no further backtracking exists. -/
def matchToEnd : List Char → Option (Option Nat)
  | [] => some none
  | c :: rest =>
    if c = 'L' then
      let ds := rest.takeWhile isDig
      if ds ≠ [] ∧ rest.dropWhile isDig = [] then some (some (digitsVal ds)) else none
    else none

/-- Matching (?:L(?<from>\d+)(?<dash>-)?)?(?:L(?<to>\d+))?$ against the input
after a '#'.  The inner group is tried greedily; when it fails to lead to a
full match the engine retries with the group empty, which can only succeed if
the whole rest is consumed by matchToEnd. -/
def matchAfterHash : List Char → Option Caps
  | [] => (matchToEnd []).map (fun t => (none, false, t))
  | c :: rest =>
    if c = 'L' then
      let ds := rest.takeWhile isDig
      let r2 := rest.dropWhile isDig
      if ds = [] then (matchToEnd (c :: rest)).map (fun t => (none, false, t))
      else if r2.head? = some '-' then
        (matchToEnd r2.tail).map (fun t => (some (digitsVal ds), true, t))
      else (matchToEnd r2).map (fun t => (some (digitsVal ds), false, t))
    else (matchToEnd (c :: rest)).map (fun t => (none, false, t))

/-- Matching (?:(?:#(?:L(?<from>\d+)(?<dash>-)?)?)(?:L(?<to>\d+))?)?$ against
the rest of the input after the path capture. -/
def matchTail : List Char → Option Caps
  | [] => some (none, false, none)
  | c :: r => if c = '#' then matchAfterHash r else none

/-- The lazy path capture: try the shortest nonempty prefix (of characters in
the dot class) whose remainder is consumed by matchTail. -/
def findSplit (pre : List Char) : List Char → Option (List Char × Caps)
  | [] => none
  | c :: rs =>
    if dotClass c then
      match matchTail rs with
      | some caps => some (pre ++ [c], caps)
      | none => findSplit (pre ++ [c]) rs
    else none

/-- The full regular expression on character lists: the literal "file=" then
the lazy path then the optional line spec. -/
def parseFileMetaL : List Char → Option (List Char × Caps)
  | 'f' :: 'i' :: 'l' :: 'e' :: '=' :: r => findSplit [] r
  | _ => none

/-- res = regex.exec(fileMeta) together with the non-null checks of
src/index.ts line 72 (the path capture of a successful match is never
empty, so checking the match is enough). -/
def parseFileMeta (fileMeta : String) : Option (String × Caps) :=
  (parseFileMetaL fileMeta.data).map (fun pr => (String.mk pr.1, pr.2))

/-- The reference record the transformer builds on src/index.ts lines 75-80:
filePath, fromLine, hasDash (the spec calls it isRange), toLine. -/
structure ParsedReference where
  filePath : String
  fromLine : Option Nat
  isRange : Bool
  toLine : Option Nat
deriving DecidableEq, Repr

/-- Lines 75-80 of src/index.ts: fromLine is the parsed from capture, hasDash
is truthiness of the dash capture or absence of the from capture, toLine the
parsed to capture. -/
def parseReference (fileMeta : String) : Option ParsedReference :=
  (parseFileMeta fileMeta).map (fun pr =>
    { filePath := pr.1
      fromLine := pr.2.1
      isRange := pr.2.2.1 || pr.2.1.isNone
      toLine := pr.2.2.2 })

/-- The lines an open-ended (dash, no toLine) extraction covers: all lines,
except that a trailing empty line produced by a final newline is dropped
when preserveTrailingNewline is false. -/
def effLines (l : List Char) (preserveTrailingNewline : Bool) : List (List Char) :=
  if (splitNl l).getLast? = some [] ∧ preserveTrailingNewline = false
  then (splitNl l).dropLast else splitNl l

/-- Number of trailing newline characters of a string, i.e. the number of
trailing blank (newline-terminated, empty) lines. -/
def trailingNewlineCount (s : String) : Nat :=
  (s.data.reverse.takeWhile (fun c => c == '\n')).length

/-! ## Metadata token handling (src/index.ts lines 54-62)

node.meta is split on spaces that are not preceded by a backslash (the
lookbehind in /(?<!\\) /g) and the first token starting with "file=" is
selected. -/

/-- Walk the metadata keeping track of the previous character; split at each
space whose preceding character is not a backslash. -/
def splitMetaAux (prev : Option Char) (cur : List Char) : List Char → List (List Char)
  | [] => [cur.reverse]
  | c :: rest =>
    if c = ' ' ∧ prev ≠ some '\\' then cur.reverse :: splitMetaAux (some ' ') [] rest
    else splitMetaAux (some c) (c :: cur) rest

/-- (node.meta || '').split(/(?<!\\) /g). -/
def splitUnescapedSpaces (s : String) : List String :=
  (splitMetaAux none [] s.data).map String.mk

/-- JavaScript String.prototype.startsWith. -/
def jsStartsWith (s pre : String) : Bool := pre.data.isPrefixOf s.data

/-- .split(...).find(meta => meta.startsWith('file=')). -/
def findFileMeta (meta : String) : Option String :=
  (splitUnescapedSpaces meta).find? (fun tok => jsStartsWith tok "file=")

/-! ## strip-indent / min-indent (the removeRedundantIndentations transform)

min-indent matches each line against /^[ \t]*(?=\S)/gm and takes the minimal
match length; strip-indent removes that many leading space-or-tab characters
from every line that has them. -/

/-- The regex class [ \t]. -/
def isSpaceTab (c : Char) : Bool := c == ' ' || c == '\t'

/-- The JS whitespace class (complement of the lookahead S of min-indent). -/
def isJsWhitespace (c : Char) : Bool :=
  c == ' ' || c == '\t' || c == '\n' || c == '\r' ||
  c.toNat == 0xb || c.toNat == 0xc || c.toNat == 0xa0 || c.toNat == 0x1680 ||
  (0x2000 ≤ c.toNat && c.toNat ≤ 0x200a) || c.toNat == 0x2028 || c.toNat == 0x2029 ||
  c.toNat == 0x202f || c.toNat == 0x205f || c.toNat == 0x3000 || c.toNat == 0xfeff

/-- Length of the match of /^[ \t]*(?=\S)/ on one line, if it matches. -/
def lineIndentLen (l : List Char) : Option Nat :=
  match l.dropWhile isSpaceTab with
  | [] => none
  | c :: _ => if isJsWhitespace c then none else some (l.takeWhile isSpaceTab).length

/-- min-indent: the minimum of the per-line matches, 0 when there is none. -/
def minIndent (s : String) : Nat :=
  match (splitNl s.data).filterMap lineIndentLen with
  | [] => 0
  | x :: xs => xs.foldl Nat.min x

/-- Applying /^[ \t]{indent}/ -> "" to one line. -/
def stripLine (indent : Nat) (l : List Char) : List Char :=
  if indent ≤ l.length ∧ (l.take indent).all isSpaceTab then l.drop indent else l

/-- strip-indent. -/
def stripIndent (s : String) : String :=
  if minIndent s = 0 then s
  else String.mk (joinNl ((splitNl s.data).map (stripLine (minIndent s))))

/-! ## POSIX path model (node:path as used on src/index.ts lines 40-44, 81-97)

Paths are resolved by splitting on '/', dropping empty and "." segments and
letting ".." pop the previous segment (above the root it disappears, as in
path.resolve of an absolute path). -/

/-- Segment normalization of an absolute path, processing left to right with
the accumulator holding the segments so far in reverse. -/
def normAux : List String → List String → List String
  | acc, [] => acc.reverse
  | acc, s :: rest =>
    if s = "" ∨ s = "." then normAux acc rest
    else if s = ".." then normAux (acc.drop 1) rest
    else normAux (s :: acc) rest

/-- The normalized segments of an absolute path string. -/
def normSegments (s : String) : List String :=
  normAux [] ((splitOnChar '/' s.data).map String.mk)

/-- The absolute path string with the given segments. -/
def absOfSegs (segs : List String) : String :=
  String.mk ('/' :: joinWith '/' (segs.map String.data))

/-- path.isAbsolute on POSIX. -/
def isAbsolutePath (s : String) : Bool := jsStartsWith s "/"

/-- Normalization of an absolute path to its canonical spelling. -/
def normalizePath (s : String) : String := absOfSegs (normSegments s)

/-- path.resolve(dirname, p) on POSIX, with the working directory supplied
for the case of a relative dirname. -/
def pathResolve (cwd dirname p : String) : String :=
  if isAbsolutePath p then normalizePath p
  else if isAbsolutePath dirname then normalizePath (dirname ++ "/" ++ p)
  else normalizePath (cwd ++ "/" ++ dirname ++ "/" ++ p)

/-- Length of the longest common segment prefix of two resolved paths. -/
def commonPrefixLen : List String → List String → Nat
  | a :: as, b :: bs => if a = b then commonPrefixLen as bs + 1 else 0
  | _, _ => 0

/-- path.relative(fromP, toP) on POSIX for absolute arguments: ".." for each
remaining segment of fromP, then the remaining segments of toP. -/
def pathRelative (fromP toP : String) : String :=
  String.mk (joinWith '/'
    (List.replicate ((normSegments fromP).length -
        commonPrefixLen (normSegments fromP) (normSegments toP)) ['.', '.'] ++
      ((normSegments toP).drop
        (commonPrefixLen (normSegments fromP) (normSegments toP))).map String.data))

/-- A well-formed path segment of a normalized absolute path: nonempty, not a
dot or dot-dot segment, and free of separators.  path.resolve only ever
produces segment lists of this shape. -/
def ValidSeg (s : String) : Prop :=
  s.data ≠ [] ∧ s ≠ "." ∧ s ≠ ".." ∧ '/' ∉ s.data

instance : DecidablePred ValidSeg := fun s =>
  inferInstanceAs (Decidable (s.data ≠ [] ∧ s ≠ "." ∧ s ≠ ".." ∧ '/' ∉ s.data))

/-! ## The transformer (src/index.ts lines 46-122) -/

/-- The fields of an mdast code node the transformer can see. -/
structure Code where
  lang : Option String := none
  meta : Option String := none
  value : String := ""
deriving DecidableEq, Repr

/-- The failure modes of the transformer: the VFile dirname check (line 65),
the regex failure (line 73, the spec's MalformedReferenceError), the
containment failure (lines 93-95, the spec's OutsideRootError) and a failed
file read (line 101, the spec's FileAccessError). -/
inductive TransformError where
  | noDirname : TransformError
  | malformedReference : String → TransformError
  | outsideRoot : String → String → TransformError
  | fileAccess : String → TransformError
deriving DecidableEq, Repr

/-- The plugin options (rootDir is resolved by the plugin before the
transformer runs, so it is passed separately below). -/
structure CodeImportOptions where
  preserveTrailingNewline : Bool := false
  removeRedundantIndentations : Bool := false
  allowImportingFromOutside : Bool := false
deriving DecidableEq, Repr

/-- Lines 86-92: the containment test.  !rootDir is the JS falsiness test on
a string, and path.isAbsolute(relativePathFromRootDir) the POSIX one. -/
def outsideRootCheck (rootDir fileAbsPath : String) : Bool :=
  decide (rootDir = "") || jsStartsWith (pathRelative rootDir fileAbsPath) "../" ||
    isAbsolutePath (pathRelative rootDir fileAbsPath)

/-- Lines 86-97: fail with the outside-root error or keep the path. -/
def resolvePathChecked (allowOutside : Bool) (rootDir fileAbsPath : String) :
    Except TransformError String :=
  if allowOutside = false then
    if outsideRootCheck rootDir fileAbsPath then
      Except.error (TransformError.outsideRoot fileAbsPath rootDir)
    else Except.ok fileAbsPath
  else Except.ok fileAbsPath

/-- Line 82: filePath.replace(/^<rootDir>/, rootDir). -/
def replaceRootDirToken (p rootDir : String) : String :=
  if jsStartsWith p "<rootDir>" then rootDir ++ String.mk (p.data.drop 9) else p

/-- Line 83: .replace(/\\ /g, ' '): global left-to-right replacement. -/
def unescAux : List Char → List Char
  | '\\' :: ' ' :: rest => ' ' :: unescAux rest
  | c :: rest => c :: unescAux rest
  | [] => []

/-- Unescaping of escaped spaces in the captured path. -/
def unescapeSpaces (s : String) : String := String.mk (unescAux s.data)

/-- One iteration of the transformer loop (src/index.ts lines 54-114) on one
code node: find the file= token, parse it, resolve and check the path, read
the file through the collaborator fs, slice it and optionally strip the
common indentation.  Nodes without a file= token pass through unchanged. -/
def processNode (opts : CodeImportOptions) (rootDir cwd : String)
    (dirname : Option String) (fs : String → Option String) (node : Code) :
    Except TransformError Code :=
  match findFileMeta (node.meta.getD "") with
  | none => Except.ok node
  | some fileMeta =>
    if dirname.getD "" = "" then Except.error TransformError.noDirname
    else
      match parseReference fileMeta with
      | none => Except.error (TransformError.malformedReference fileMeta)
      | some ref =>
        match resolvePathChecked opts.allowImportingFromOutside rootDir
          (pathResolve cwd (dirname.getD "")
            (unescapeSpaces (replaceRootDirToken ref.filePath rootDir))) with
        | Except.error e => Except.error e
        | Except.ok p =>
          match fs p with
          | none => Except.error (TransformError.fileAccess p)
          | some content =>
            let v := extractLines content ref.fromLine ref.isRange ref.toLine
              opts.preserveTrailingNewline
            Except.ok { node with value :=
              if opts.removeRedundantIndentations then stripIndent v else v }

example : processNode {} "/r" "/r" (some "/r") (fun _ => none)
    { meta := some "file=f.js#-L2" } =
    Except.error (TransformError.fileAccess "/r/f.js#-L2") := by rfl

example : processNode { removeRedundantIndentations := true } "/r" "/r" (some "/r")
    (fun q => if q = "/r/f.js" then some "a\n  b\n  c\nd" else none)
    { meta := some "file=f.js#L2-L3" } =
    Except.ok { meta := some "file=f.js#L2-L3", value := "b\nc" } := by rfl

example : stripIndent "  b\n  c" = "b\nc" := by rfl

example : pathRelative "/a/b" "/a" = ".." := by rfl

example : outsideRootCheck "/a/b" "/a" = false := by rfl

example : outsideRootCheck "/a/b" "/c/d" = true := by rfl

example : parseReference "file=f.js#L2-L3" =
    some ⟨"f.js", some 2, true, some 3⟩ := by decide
example : parseReference "file=f.js#L1" = some ⟨"f.js", some 1, false, none⟩ := by decide
example : parseReference "file=f.js#L2-" = some ⟨"f.js", some 2, true, none⟩ := by decide
example : parseReference "file=f.js" = some ⟨"f.js", none, true, none⟩ := by decide
example : parseReference "file=f.js#-L2" = some ⟨"f.js#-L2", none, true, none⟩ := by decide
example : parseReference "file=./say-#-hi.js#L2-L3" =
    some ⟨"./say-#-hi.js", some 2, true, some 3⟩ := by decide
example : parseReference "file=" = none := by decide
example : findFileMeta "js file=./a\\ b.js" = some "file=./a\\ b.js" := by decide
example : unescapeSpaces "./a\\ b.js" = "./a b.js" := by decide
example : findFileMeta "js highlight" = none := by decide
example : replaceRootDirToken "<rootDir>/x.js" "/base" = "/base/x.js" := by decide
example : pathResolve "/w" "/docs" "../x.js" = "/x.js" := by decide
example : extractLines "Hello\nline2\nline3\nline4" (some 2) true (some 3) = "line2\nline3" := by
  decide
example : extractLines "Hello\nline2\nline3\nline4" (some 1) false none = "Hello" := by decide
example : extractLines "a\nb\nc\n" none true none false = "a\nb\nc" := by decide
example : extractLines "a\nb\nc\n" none true none true = "a\nb\nc\n" := by decide

/-! ## Generic facts used by the matcher proofs -/

theorem mk_data (s : String) : String.mk s.data = s := rfl

theorem takeWhile_append_all (p : Char → Bool) (l r : List Char)
    (hl : ∀ c ∈ l, p c = true) (hr : ∀ c ∈ r.head?, p c = false) :
    (l ++ r).takeWhile p = l ∧ (l ++ r).dropWhile p = r := by
  induction l with
  | nil =>
    cases r with
    | nil => exact ⟨rfl, rfl⟩
    | cons c rs =>
      have hc : p c = false := hr c (by simp)
      simp [List.takeWhile_cons, List.dropWhile_cons, hc]
  | cons c l' ih =>
    have hc : p c = true := hl c (List.mem_cons_self c l')
    have hih := ih (fun d hd => hl d (List.mem_cons_of_mem c hd))
    simp [List.takeWhile_cons, List.dropWhile_cons, hc, hih.1, hih.2]

theorem dotClass_of_isDig {c : Char} (h : isDig c = true) : dotClass c = true := by
  have h' : 0x30 ≤ c.toNat ∧ c.toNat ≤ 0x39 := by simpa [isDig] using h
  have hn1 : c ≠ '\n' := by rintro rfl; exact absurd h'.1 (by decide)
  have hn2 : c ≠ '\r' := by rintro rfl; exact absurd h'.1 (by decide)
  have hn3 : c.toNat ≠ 0x2028 := by omega
  have hn4 : c.toNat ≠ 0x2029 := by omega
  have b1 : (c == '\n') = false := beq_eq_false_iff_ne.mpr hn1
  have b2 : (c == '\r') = false := beq_eq_false_iff_ne.mpr hn2
  have b3 : (c.toNat == 0x2028) = false := beq_eq_false_iff_ne.mpr hn3
  have b4 : (c.toNat == 0x2029) = false := beq_eq_false_iff_ne.mpr hn4
  simp [dotClass, b1, b2, b3, b4]

theorem ne_hash_of_isDig {c : Char} (h : isDig c = true) : c ≠ '#' := by
  rintro rfl; exact absurd h (by decide)

/-! ## Computation rules for the three matcher layers -/

theorem head_not_dig_dash (r : List Char) : ∀ c ∈ ('-' :: r).head?, isDig c = false := by
  intro c hc
  simp only [List.head?_cons, Option.mem_def, Option.some.injEq] at hc
  subst hc; decide

theorem head_not_dig_L (r : List Char) : ∀ c ∈ ('L' :: r).head?, isDig c = false := by
  intro c hc
  simp only [List.head?_cons, Option.mem_def, Option.some.injEq] at hc
  subst hc; decide

theorem matchToEnd_digits (ds : List Char) (h1 : ds ≠ [])
    (h2 : ∀ c ∈ ds, isDig c = true) :
    matchToEnd ('L' :: ds) = some (some (digitsVal ds)) := by
  have hspan := takeWhile_append_all isDig ds [] h2 (by simp)
  simp only [List.append_nil] at hspan
  simp [matchToEnd, hspan.1, hspan.2, h1]

theorem matchToEnd_not_L (c : Char) (r : List Char) (h : c ≠ 'L') :
    matchToEnd (c :: r) = none := by
  simp [matchToEnd, h]

theorem mah_from_only (ds : List Char) (h1 : ds ≠ [])
    (h2 : ∀ c ∈ ds, isDig c = true) :
    matchAfterHash ('L' :: ds) = some (some (digitsVal ds), false, none) := by
  have hspan := takeWhile_append_all isDig ds [] h2 (by simp)
  simp only [List.append_nil] at hspan
  simp [matchAfterHash, hspan.1, hspan.2, h1, matchToEnd]

theorem mah_from_dash (ds : List Char) (h1 : ds ≠ [])
    (h2 : ∀ c ∈ ds, isDig c = true) :
    matchAfterHash ('L' :: (ds ++ ['-'])) = some (some (digitsVal ds), true, none) := by
  have hspan := takeWhile_append_all isDig ds ['-'] h2 (head_not_dig_dash [])
  simp [matchAfterHash, hspan.1, hspan.2, h1, matchToEnd]

theorem mah_from_dash_to (ds1 ds2 : List Char) (h1 : ds1 ≠ [])
    (h2 : ∀ c ∈ ds1, isDig c = true) (h3 : ds2 ≠ [])
    (h4 : ∀ c ∈ ds2, isDig c = true) :
    matchAfterHash ('L' :: (ds1 ++ '-' :: 'L' :: ds2)) =
      some (some (digitsVal ds1), true, some (digitsVal ds2)) := by
  have hspan := takeWhile_append_all isDig ds1 ('-' :: 'L' :: ds2) h2 (head_not_dig_dash _)
  have hto := matchToEnd_digits ds2 h3 h4
  simp [matchAfterHash, hspan.1, hspan.2, h1, hto]

theorem mah_from_to_noDash (ds1 ds2 : List Char) (h1 : ds1 ≠ [])
    (h2 : ∀ c ∈ ds1, isDig c = true) (h3 : ds2 ≠ [])
    (h4 : ∀ c ∈ ds2, isDig c = true) :
    matchAfterHash ('L' :: (ds1 ++ 'L' :: ds2)) =
      some (some (digitsVal ds1), false, some (digitsVal ds2)) := by
  have hspan := takeWhile_append_all isDig ds1 ('L' :: ds2) h2 (head_not_dig_L _)
  have hto := matchToEnd_digits ds2 h3 h4
  simp [matchAfterHash, hspan.1, hspan.2, h1, hto]

theorem mah_dash_head (r : List Char) : matchAfterHash ('-' :: r) = none := by
  simp [matchAfterHash, matchToEnd]

theorem matchTail_hash (r : List Char) : matchTail ('#' :: r) = matchAfterHash r := by
  simp [matchTail]

theorem matchTail_not_hash (c : Char) (r : List Char) (h : c ≠ '#') :
    matchTail (c :: r) = none := by
  simp [matchTail, h]

/-- When the path part contains no '#', no proper suffix of it (followed by
anything) can start a line spec. -/
theorem matchTail_drop_append_none (p t : List Char) (hp : '#' ∉ p) :
    ∀ k, 1 ≤ k → k < p.length → matchTail (p.drop k ++ t) = none := by
  intro k _ hk
  rw [List.drop_eq_getElem_cons hk, List.cons_append]
  exact matchTail_not_hash _ _ (fun h => hp (h ▸ List.getElem_mem hk))

/-- The lazy path capture settles on the first split whose remainder matches
the optional line-spec group. -/
theorem findSplit_eq (p t : List Char) (caps : Caps) (hp : p ≠ [])
    (hdot : ∀ c ∈ p, dotClass c = true)
    (hfail : ∀ k, 1 ≤ k → k < p.length → matchTail (p.drop k ++ t) = none)
    (hok : matchTail t = some caps) :
    ∀ pre, findSplit pre (p ++ t) = some (pre ++ p, caps) := by
  induction p with
  | nil => exact absurd rfl hp
  | cons c p' ih =>
    intro pre
    have hc : dotClass c = true := hdot c (List.mem_cons_self c p')
    by_cases hp' : p' = []
    · subst hp'
      simp [findSplit, hc, hok]
    · have hfirst : matchTail (p' ++ t) = none := by
        have h := hfail 1 le_rfl (by simp [List.length_pos.mpr hp'])
        simpa using h
      have ihh := ih hp' (fun e he => hdot e (List.mem_cons_of_mem c he))
        (fun k hk1 hk2 => by
          have h := hfail (k + 1) (by omega) (by simp; omega)
          simpa using h)
      have step : findSplit pre ((c :: p') ++ t) = findSplit (pre ++ [c]) (p' ++ t) := by
        simp [findSplit, hc, hfirst]
      rw [step, ihh (pre ++ [c])]
      simp

/-- With a nonempty remainder of dot-class characters the regular expression
always matches: in the worst case the whole remainder becomes the path. -/
theorem findSplit_isSome (r : List Char) (h0 : r ≠ [])
    (hdot : ∀ c ∈ r, dotClass c = true) :
    ∀ pre, (findSplit pre r).isSome = true := by
  induction r with
  | nil => exact absurd rfl h0
  | cons c rs ih =>
    intro pre
    have hc : dotClass c = true := hdot c (List.mem_cons_self c rs)
    cases hm : matchTail rs with
    | some caps => simp [findSplit, hc, hm]
    | none =>
      have hrs : rs ≠ [] := by
        intro h; subst h; simp [matchTail] at hm
      have := ih hrs (fun e he => hdot e (List.mem_cons_of_mem c he)) (pre ++ [c])
      simpa [findSplit, hc, hm] using this

/-- Main parser computation rule: if the input is "file=" followed by the
path and a tail, every shorter split fails and the tail matches with the
given captures, then the regular expression yields exactly that split. -/
theorem parseFileMeta_eq_of_data (s p : String) (t : List Char) (caps : Caps)
    (hs : s.data = 'f' :: 'i' :: 'l' :: 'e' :: '=' :: (p.data ++ t))
    (hp : p.data ≠ []) (hdot : ∀ c ∈ p.data, dotClass c = true)
    (hfail : ∀ k, 1 ≤ k → k < p.data.length → matchTail (p.data.drop k ++ t) = none)
    (hok : matchTail t = some caps) :
    parseFileMeta s = some (p, caps) := by
  unfold parseFileMeta
  rw [hs]
  show (findSplit [] (p.data ++ t)).map _ = _
  rw [findSplit_eq p.data t caps hp hdot hfail hok []]
  simp [mk_data]

/-! ## Parse results for the grammar forms of the spec -/

theorem parseRef_whole (p : String) (hp : p.data ≠ [])
    (hdot : ∀ ch ∈ p.data, dotClass ch = true) (hhash : '#' ∉ p.data) :
    parseReference ("file=" ++ p) = some ⟨p, none, true, none⟩ := by
  have hmeta : parseFileMeta ("file=" ++ p) = some (p, (none, false, none)) := by
    refine parseFileMeta_eq_of_data _ p [] _ ?_ hp hdot
      (matchTail_drop_append_none p.data [] hhash) rfl
    simp [String.data_append]
  unfold parseReference
  rw [hmeta]
  rfl

theorem parseRef_single (p : String) (ds : List Char) (hp : p.data ≠ [])
    (hdot : ∀ ch ∈ p.data, dotClass ch = true) (hhash : '#' ∉ p.data)
    (h1 : ds ≠ []) (h2 : ∀ ch ∈ ds, isDig ch = true) :
    parseReference ("file=" ++ p ++ "#L" ++ String.mk ds) =
      some ⟨p, some (digitsVal ds), false, none⟩ := by
  have hcaps : matchTail ('#' :: 'L' :: ds) = some (some (digitsVal ds), false, none) := by
    rw [matchTail_hash]; exact mah_from_only ds h1 h2
  have hmeta := parseFileMeta_eq_of_data ("file=" ++ p ++ "#L" ++ String.mk ds) p
    ('#' :: 'L' :: ds) _ (by simp [String.data_append]) hp hdot
    (matchTail_drop_append_none p.data _ hhash) hcaps
  unfold parseReference
  rw [hmeta]
  rfl

theorem parseRef_open (p : String) (ds : List Char) (hp : p.data ≠ [])
    (hdot : ∀ ch ∈ p.data, dotClass ch = true) (hhash : '#' ∉ p.data)
    (h1 : ds ≠ []) (h2 : ∀ ch ∈ ds, isDig ch = true) :
    parseReference ("file=" ++ p ++ "#L" ++ String.mk ds ++ "-") =
      some ⟨p, some (digitsVal ds), true, none⟩ := by
  have hcaps : matchTail ('#' :: 'L' :: (ds ++ ['-'])) =
      some (some (digitsVal ds), true, none) := by
    rw [matchTail_hash]; exact mah_from_dash ds h1 h2
  have hmeta := parseFileMeta_eq_of_data ("file=" ++ p ++ "#L" ++ String.mk ds ++ "-") p
    ('#' :: 'L' :: (ds ++ ['-'])) _ (by simp [String.data_append]) hp hdot
    (matchTail_drop_append_none p.data _ hhash) hcaps
  unfold parseReference
  rw [hmeta]
  rfl

theorem parseRef_range (p : String) (ds1 ds2 : List Char) (hp : p.data ≠ [])
    (hdot : ∀ ch ∈ p.data, dotClass ch = true) (hhash : '#' ∉ p.data)
    (h1 : ds1 ≠ []) (h2 : ∀ ch ∈ ds1, isDig ch = true)
    (h3 : ds2 ≠ []) (h4 : ∀ ch ∈ ds2, isDig ch = true) :
    parseReference ("file=" ++ p ++ "#L" ++ String.mk ds1 ++ "-L" ++ String.mk ds2) =
      some ⟨p, some (digitsVal ds1), true, some (digitsVal ds2)⟩ := by
  have hcaps : matchTail ('#' :: 'L' :: (ds1 ++ '-' :: 'L' :: ds2)) =
      some (some (digitsVal ds1), true, some (digitsVal ds2)) := by
    rw [matchTail_hash]; exact mah_from_dash_to ds1 ds2 h1 h2 h3 h4
  have hmeta := parseFileMeta_eq_of_data
    ("file=" ++ p ++ "#L" ++ String.mk ds1 ++ "-L" ++ String.mk ds2) p
    ('#' :: 'L' :: (ds1 ++ '-' :: 'L' :: ds2)) _ (by simp [String.data_append]) hp hdot
    (matchTail_drop_append_none p.data _ hhash) hcaps
  unfold parseReference
  rw [hmeta]
  rfl

theorem parseRef_noDash_to (p : String) (ds1 ds2 : List Char) (hp : p.data ≠ [])
    (hdot : ∀ ch ∈ p.data, dotClass ch = true) (hhash : '#' ∉ p.data)
    (h1 : ds1 ≠ []) (h2 : ∀ ch ∈ ds1, isDig ch = true)
    (h3 : ds2 ≠ []) (h4 : ∀ ch ∈ ds2, isDig ch = true) :
    parseReference ("file=" ++ p ++ "#L" ++ String.mk ds1 ++ "L" ++ String.mk ds2) =
      some ⟨p, some (digitsVal ds1), false, some (digitsVal ds2)⟩ := by
  have hcaps : matchTail ('#' :: 'L' :: (ds1 ++ 'L' :: ds2)) =
      some (some (digitsVal ds1), false, some (digitsVal ds2)) := by
    rw [matchTail_hash]; exact mah_from_to_noDash ds1 ds2 h1 h2 h3 h4
  have hmeta := parseFileMeta_eq_of_data
    ("file=" ++ p ++ "#L" ++ String.mk ds1 ++ "L" ++ String.mk ds2) p
    ('#' :: 'L' :: (ds1 ++ 'L' :: ds2)) _ (by simp [String.data_append]) hp hdot
    (matchTail_drop_append_none p.data _ hhash) hcaps
  unfold parseReference
  rw [hmeta]
  rfl

/-- No split of path ++ "#-L<digits>" matches the line-spec group before the
very end of the string, so the whole string becomes the path capture. -/
theorem hfail_absorb (pd ds : List Char) (hhash : '#' ∉ pd)
    (hds : ∀ ch ∈ ds, isDig ch = true) :
    ∀ k, 1 ≤ k → k < (pd ++ '#' :: '-' :: 'L' :: ds).length →
      matchTail ((pd ++ '#' :: '-' :: 'L' :: ds).drop k ++ []) = none := by
  intro k h1 h2
  rw [List.append_nil]
  rcases lt_or_ge k pd.length with hk | hk
  · rw [List.drop_append_of_le_length (le_of_lt hk)]
    exact matchTail_drop_append_none pd _ hhash k h1 hk
  · have hdrop : (pd ++ '#' :: '-' :: 'L' :: ds).drop k =
        ('#' :: '-' :: 'L' :: ds).drop (k - pd.length) := by
      conv_lhs => rw [show k = pd.length + (k - pd.length) by omega]
      rw [List.drop_append]
    rw [hdrop]
    have hlen : k - pd.length < 3 + ds.length := by
      simp [List.length_append] at h2; omega
    rcases hj : k - pd.length with _ | _ | _ | j
    · rw [List.drop_zero, matchTail_hash]
      exact mah_dash_head _
    · exact matchTail_not_hash _ _ (by decide)
    · exact matchTail_not_hash _ _ (by decide)
    · have hjlt : j < ds.length := by omega
      show matchTail (ds.drop j) = none
      rw [List.drop_eq_getElem_cons hjlt]
      exact matchTail_not_hash _ _ (ne_hash_of_isDig (hds _ (List.getElem_mem hjlt)))

/-- A "#-L<digits>" tail is absorbed into the path capture: the reference
parses as a whole-file import of the literal path. -/
theorem parseRef_absorb (p : String) (ds : List Char) (hp : p.data ≠ [])
    (hdot : ∀ ch ∈ p.data, dotClass ch = true) (hhash : '#' ∉ p.data)
    (_h1 : ds ≠ []) (h2 : ∀ ch ∈ ds, isDig ch = true) :
    parseReference ("file=" ++ p ++ "#-L" ++ String.mk ds) =
      some ⟨p ++ "#-L" ++ String.mk ds, none, true, none⟩ := by
  have hbig : (p ++ "#-L" ++ String.mk ds).data = p.data ++ '#' :: '-' :: 'L' :: ds := by
    simp [String.data_append]
  have hmeta : parseFileMeta ("file=" ++ p ++ "#-L" ++ String.mk ds) =
      some (p ++ "#-L" ++ String.mk ds, (none, false, none)) := by
    refine parseFileMeta_eq_of_data _ (p ++ "#-L" ++ String.mk ds) [] _ ?_ ?_ ?_ ?_ rfl
    · rw [hbig]; simp [String.data_append]
    · rw [hbig]; simp [hp]
    · rw [hbig]
      intro ch hch
      rcases List.mem_append.mp hch with h | h
      · exact hdot ch h
      · simp only [List.mem_cons] at h
        rcases h with h | h | h | h
        · subst h; decide
        · subst h; decide
        · subst h; decide
        · exact dotClass_of_isDig (h2 ch h)
    · rw [hbig]
      exact hfail_absorb p.data ds hhash h2
  unfold parseReference
  rw [hmeta]
  rfl

/-! ## Computation rules for extractLines -/

theorem joinNl_singleton (l : List Char) : joinNl [l] = l := rfl

theorem jsStart_pos (n : Nat) (hn : 1 ≤ n) : jsStart (some n) = n := by
  unfold jsStart
  rw [Option.getD_some, if_neg (by omega)]

theorem jsStop_noDash (lines : List (List Char)) (s : Nat) (toLine : Option Nat)
    (pres : Bool) : jsStop lines s false toLine pres = s := rfl

theorem jsStop_to (lines : List (List Char)) (s m : Nat) (pres : Bool) (hm : 1 ≤ m) :
    jsStop lines s true (some m) pres = m := by
  unfold jsStop
  rw [if_neg (by simp), Option.getD_some, if_pos (by omega)]

theorem jsStop_open (lines : List (List Char)) (s : Nat) (pres : Bool) :
    jsStop lines s true none pres =
      if lines.getLast? = some [] ∧ pres = false then lines.length - 1
      else lines.length := by
  unfold jsStop
  rw [if_neg (by simp), Option.getD_none, if_neg (by omega)]

theorem extract_whole (c : String) (pres : Bool) :
    extractLines c none true none pres = String.mk (joinNl (effLines c.data pres)) := by
  unfold extractLines effLines
  rw [jsStop_open]
  by_cases hcond : (splitNl c.data).getLast? = some [] ∧ pres = false
  · rw [if_pos hcond, if_pos hcond, ← List.dropLast_eq_take]
    rfl
  · rw [if_neg hcond, if_neg hcond, List.take_length]
    rfl

theorem extract_single (c : String) (n : Nat) (pres : Bool) (hn : 1 ≤ n)
    (hcount : n ≤ (splitNl c.data).length) :
    extractLines c (some n) false none pres =
      String.mk ((splitNl c.data).getD (n - 1) []) := by
  have hlt : n - 1 < (splitNl c.data).length := by omega
  unfold extractLines
  rw [jsStart_pos n hn, jsStop_noDash, List.drop_take,
    show n - (n - 1) = 1 by omega, List.drop_eq_getElem_cons hlt,
    List.getD_eq_getElem _ _ hlt]
  rfl

theorem extract_open (c : String) (n : Nat) (pres : Bool) (hn : 1 ≤ n) :
    extractLines c (some n) true none pres =
      String.mk (joinNl ((effLines c.data pres).drop (n - 1))) := by
  unfold extractLines effLines
  rw [jsStart_pos n hn, jsStop_open]
  by_cases hcond : (splitNl c.data).getLast? = some [] ∧ pres = false
  · rw [if_pos hcond, if_pos hcond, ← List.dropLast_eq_take]
  · rw [if_neg hcond, if_neg hcond, List.take_length]

theorem extract_range (c : String) (n m : Nat) (pres : Bool) (hn : 1 ≤ n)
    (hnm : n ≤ m) :
    extractLines c (some n) true (some m) pres =
      String.mk (joinNl (((splitNl c.data).drop (n - 1)).take (m - n + 1))) := by
  unfold extractLines
  rw [jsStart_pos n hn, jsStop_to _ _ _ _ (by omega), List.drop_take,
    show m - (n - 1) = m - n + 1 by omega]

/-- C1: for every annotation whose '#' section parses, the parser and the
extractor realize the four grammar forms.  file=path with no '#' section
yields fromLine and toLine absent, isRange true, and extraction of the whole
file (up to the trailing-newline rule captured by effLines); #L n with no
dash yields exactly line n (isRange false); #L n- yields lines n through the
end of file; #L n-L m yields lines n through m inclusive, joined with a
newline. -/
theorem c1_grammar_forms (p : String) (ds1 ds2 : List Char) (c : String) (pres : Bool)
    (hp : p.data ≠ []) (hdot : ∀ ch ∈ p.data, dotClass ch = true) (hhash : '#' ∉ p.data)
    (h1 : ds1 ≠ []) (h2 : ∀ ch ∈ ds1, isDig ch = true)
    (h3 : ds2 ≠ []) (h4 : ∀ ch ∈ ds2, isDig ch = true)
    (hn : 1 ≤ digitsVal ds1) (hcount : digitsVal ds1 ≤ (splitNl c.data).length)
    (hnm : digitsVal ds1 ≤ digitsVal ds2) :
    parseReference ("file=" ++ p) = some ⟨p, none, true, none⟩ ∧
    parseReference ("file=" ++ p ++ "#L" ++ String.mk ds1) =
      some ⟨p, some (digitsVal ds1), false, none⟩ ∧
    parseReference ("file=" ++ p ++ "#L" ++ String.mk ds1 ++ "-") =
      some ⟨p, some (digitsVal ds1), true, none⟩ ∧
    parseReference ("file=" ++ p ++ "#L" ++ String.mk ds1 ++ "-L" ++ String.mk ds2) =
      some ⟨p, some (digitsVal ds1), true, some (digitsVal ds2)⟩ ∧
    extractLines c none true none pres = String.mk (joinNl (effLines c.data pres)) ∧
    extractLines c (some (digitsVal ds1)) false none pres =
      String.mk ((splitNl c.data).getD (digitsVal ds1 - 1) []) ∧
    extractLines c (some (digitsVal ds1)) true none pres =
      String.mk (joinNl ((effLines c.data pres).drop (digitsVal ds1 - 1))) ∧
    extractLines c (some (digitsVal ds1)) true (some (digitsVal ds2)) pres =
      String.mk (joinNl (((splitNl c.data).drop (digitsVal ds1 - 1)).take
        (digitsVal ds2 - digitsVal ds1 + 1))) :=
  ⟨parseRef_whole p hp hdot hhash,
   parseRef_single p ds1 hp hdot hhash h1 h2,
   parseRef_open p ds1 hp hdot hhash h1 h2,
   parseRef_range p ds1 ds2 hp hdot hhash h1 h2 h3 h4,
   extract_whole c pres,
   extract_single c _ pres hn hcount,
   extract_open c _ pres hn,
   extract_range c _ _ pres hn hnm⟩

/-- Witness for C1 at the fixture of the repository's test suite. -/
theorem c1_grammar_forms_witness :
    parseReference ("file=" ++ "f.js") = some ⟨"f.js", none, true, none⟩ ∧
    parseReference ("file=" ++ "f.js" ++ "#L" ++ String.mk ['2']) =
      some ⟨"f.js", some (digitsVal ['2']), false, none⟩ ∧
    parseReference ("file=" ++ "f.js" ++ "#L" ++ String.mk ['2'] ++ "-") =
      some ⟨"f.js", some (digitsVal ['2']), true, none⟩ ∧
    parseReference ("file=" ++ "f.js" ++ "#L" ++ String.mk ['2'] ++ "-L" ++ String.mk ['3']) =
      some ⟨"f.js", some (digitsVal ['2']), true, some (digitsVal ['3'])⟩ ∧
    extractLines "Hello\nline2\nline3\nline4" none true none false =
      String.mk (joinNl (effLines ("Hello\nline2\nline3\nline4" : String).data false)) ∧
    extractLines "Hello\nline2\nline3\nline4" (some (digitsVal ['2'])) false none false =
      String.mk ((splitNl ("Hello\nline2\nline3\nline4" : String).data).getD
        (digitsVal ['2'] - 1) []) ∧
    extractLines "Hello\nline2\nline3\nline4" (some (digitsVal ['2'])) true none false =
      String.mk (joinNl ((effLines ("Hello\nline2\nline3\nline4" : String).data false).drop
        (digitsVal ['2'] - 1))) ∧
    extractLines "Hello\nline2\nline3\nline4" (some (digitsVal ['2'])) true
        (some (digitsVal ['3'])) false =
      String.mk (joinNl (((splitNl ("Hello\nline2\nline3\nline4" : String).data).drop
        (digitsVal ['2'] - 1)).take (digitsVal ['3'] - digitsVal ['2'] + 1))) :=
  c1_grammar_forms "f.js" ['2'] ['3'] "Hello\nline2\nline3\nline4" false
    (by decide) (by decide) (by decide) (by decide) (by decide) (by decide) (by decide)
    (by decide) (by decide) (by decide)

/-! ## C3, C4: malformed tails -/

/-- C3 counterexample: the claim says an annotation with a '#' section of
the form -L n always fails with MalformedReferenceError, but on a concrete
input the code parses it fine (the regex absorbs "#-L2" into the path
capture) and then fails with a file-access error for the literal path
"f.js#-L2" instead. -/
theorem c3_counterexample :
    processNode {} "/r" "/r" (some "/r") (fun _ => none)
      { meta := some "file=f.js#-L2" } =
      Except.error (TransformError.fileAccess "/r/f.js#-L2") ∧
    parseReference "file=f.js#-L2" = some ⟨"f.js#-L2", none, true, none⟩ := by
  constructor <;> rfl

/-- C3 (amended): a '#' section of the form -L n is not recognized as a line
spec and is not a parse error either: the whole string, '#' section
included, becomes the path capture of a whole-file reference (fromLine and
toLine absent, isRange true).  Processing then fails only if no file of that
literal name can be read. -/
theorem c3_amended (p : String) (ds : List Char) (hp : p.data ≠ [])
    (hdot : ∀ ch ∈ p.data, dotClass ch = true) (hhash : '#' ∉ p.data)
    (_h1 : ds ≠ []) (h2 : ∀ ch ∈ ds, isDig ch = true) :
    parseReference ("file=" ++ p ++ "#-L" ++ String.mk ds) =
      some ⟨p ++ "#-L" ++ String.mk ds, none, true, none⟩ :=
  parseRef_absorb p ds hp hdot hhash _h1 h2

/-- Witness for the amended C3. -/
theorem c3_amended_witness :
    parseReference ("file=" ++ "f.js" ++ "#-L" ++ String.mk ['2']) =
      some ⟨"f.js" ++ "#-L" ++ String.mk ['2'], none, true, none⟩ :=
  c3_amended "f.js" ['2'] (by decide) (by decide) (by decide) (by decide) (by decide)

/-- C4 counterexample: the claim says a malformed tail (here the stray 'x'
after the line number) fails with MalformedReferenceError, but the code
succeeds with a different interpretation: the whole string becomes the path
of a whole-file reference. -/
theorem c4_counterexample :
    parseReference "file=f.js#L2x" = some ⟨"f.js#L2x", none, true, none⟩ := by
  rfl

/-- C4 (amended): a tail that does not match the lineSpec grammar never
fails: the path capture absorbs it and parsing succeeds with the whole-file
interpretation.  The regex fails (the MalformedReferenceError of the spec)
only when nothing at all can serve as the path, e.g. the bare "file=". -/
theorem c4_amended :
    (∀ r : String, r.data ≠ [] → (∀ ch ∈ r.data, dotClass ch = true) →
      (parseFileMeta ("file=" ++ r)).isSome = true) ∧
    parseFileMeta "file=" = none := by
  constructor
  · intro r h0 hdot
    unfold parseFileMeta
    have hdata : ("file=" ++ r).data = 'f' :: 'i' :: 'l' :: 'e' :: '=' :: r.data := by
      simp [String.data_append]
    rw [hdata]
    show ((findSplit [] r.data).map _).isSome = true
    have h := findSplit_isSome r.data h0 hdot []
    cases hS : findSplit [] r.data with
    | none => rw [hS] at h; simp at h
    | some pr => simp
  · rfl

/-- Witness for the amended C4. -/
theorem c4_amended_witness :
    (parseFileMeta ("file=" ++ "f.js#L2x-)(L")).isSome = true ∧
    parseFileMeta "file=" = none :=
  ⟨c4_amended.1 "f.js#L2x-)(L" (by decide) (by decide), c4_amended.2⟩

/-! ## C6: out-of-range line numbers -/

/-- C6 counterexample: the claim says a toLine smaller than fromLine always
yields the empty string, but toLine = 0 is falsy in JS, so "else if
(toLine)" skips it and the extraction behaves like an open range: with
fromLine = 2 and toLine = 0 < 2 the result is "b", not "". -/
theorem c6_counterexample :
    0 < 2 ∧ extractLines "a\nb" (some 2) true (some 0) false = "b" ∧
      extractLines "a\nb" (some 2) true (some 0) false ≠ "" := by
  refine ⟨by omega, by rfl, by decide⟩

/-- C6 (amended): extraction never throws (it is a total function), a
fromLine beyond the line count yields the empty string, and a toLine smaller
than fromLine yields the empty string provided toLine is at least 1 (a
toLine of 0 is falsy and behaves like an absent toLine instead). -/
theorem c6_amended (c : String) (fL tL : Option Nat) (hasDash pres : Bool) :
    (∀ n, fL = some n → (splitNl c.data).length < n →
      extractLines c fL hasDash tL pres = "") ∧
    (∀ n m, fL = some n → tL = some m → hasDash = true → 1 ≤ m → m < n →
      extractLines c fL hasDash tL pres = "") := by
  constructor
  · rintro n rfl hlen
    unfold extractLines
    rw [jsStart_pos n (by omega)]
    have hnil : ((splitNl c.data).take
        (jsStop (splitNl c.data) n hasDash tL pres)).drop (n - 1) = [] := by
      apply List.drop_eq_nil_of_le
      calc ((splitNl c.data).take (jsStop (splitNl c.data) n hasDash tL pres)).length
          ≤ (splitNl c.data).length := by
            rw [List.length_take]; omega
        _ ≤ n - 1 := by omega
    rw [hnil]
    rfl
  · rintro n m rfl rfl rfl hm hmn
    unfold extractLines
    rw [jsStart_pos n (by omega), jsStop_to _ _ _ _ hm]
    have hnil : ((splitNl c.data).take m).drop (n - 1) = [] := by
      apply List.drop_eq_nil_of_le
      calc ((splitNl c.data).take m).length ≤ m := by
            rw [List.length_take]; omega
        _ ≤ n - 1 := by omega
    rw [hnil]
    rfl

/-- Witness for the amended C6. -/
theorem c6_amended_witness :
    extractLines "a\nb" (some 5) true none false = "" ∧
    extractLines "a\nb" (some 3) true (some 2) false = "" := by
  constructor
  · exact (c6_amended "a\nb" (some 5) none true false).1 5 rfl (by decide)
  · exact (c6_amended "a\nb" (some 3) (some 2) true false).2 3 2 rfl rfl rfl
      (by decide) (by decide)

/-! ## C8: the toLine/isRange invariant -/

/-- C8 counterexample: the '#' section "L2L3" (trailing line number, no
dash) is accepted by the regex and produces toLine set while isRange is
false, violating the claimed invariant. -/
theorem c8_counterexample :
    parseReference "file=f.js#L2L3" = some ⟨"f.js", some 2, false, some 3⟩ := by
  rfl

/-- C8 (amended): the parser can produce toLine set together with isRange
false (a '#' section of the form L n L m does exactly that), but extraction
ignores toLine whenever isRange is false, so such a reference behaves as the
single line n. -/
theorem c8_amended (p : String) (ds1 ds2 : List Char) (hp : p.data ≠ [])
    (hdot : ∀ ch ∈ p.data, dotClass ch = true) (hhash : '#' ∉ p.data)
    (h1 : ds1 ≠ []) (h2 : ∀ ch ∈ ds1, isDig ch = true)
    (h3 : ds2 ≠ []) (h4 : ∀ ch ∈ ds2, isDig ch = true) :
    parseReference ("file=" ++ p ++ "#L" ++ String.mk ds1 ++ "L" ++ String.mk ds2) =
      some ⟨p, some (digitsVal ds1), false, some (digitsVal ds2)⟩ ∧
    ∀ (c : String) (fL tL : Option Nat) (pres : Bool),
      extractLines c fL false tL pres = extractLines c fL false none pres := by
  refine ⟨parseRef_noDash_to p ds1 ds2 hp hdot hhash h1 h2 h3 h4, ?_⟩
  intro c fL tL pres
  unfold extractLines
  rw [jsStop_noDash, jsStop_noDash]

/-- Witness for the amended C8. -/
theorem c8_amended_witness :
    parseReference ("file=" ++ "f.js" ++ "#L" ++ String.mk ['2'] ++ "L" ++ String.mk ['3']) =
      some ⟨"f.js", some (digitsVal ['2']), false, some (digitsVal ['3'])⟩ ∧
    ∀ (c : String) (fL tL : Option Nat) (pres : Bool),
      extractLines c fL false tL pres = extractLines c fL false none pres :=
  c8_amended "f.js" ['2'] ['3'] (by decide) (by decide) (by decide) (by decide)
    (by decide) (by decide) (by decide)

/-! ## C9: the fromLine lower bound -/

/-- C9 counterexample: the '#' section "L0" is accepted by the regex and
produces fromLine = 0, violating the claimed invariant that fromLine, when
present, is at least 1. -/
theorem c9_counterexample :
    parseReference "file=f.js#L0" = some ⟨"f.js", some 0, false, none⟩ := by
  rfl

/-- C9 (amended): the parser can produce fromLine = 0 (a '#' section of the
form L0 does), but "fromLine || 1" in extractLines coerces a zero start to
1, so such a reference behaves exactly as line 1. -/
theorem c9_amended (p : String) (hp : p.data ≠ [])
    (hdot : ∀ ch ∈ p.data, dotClass ch = true) (hhash : '#' ∉ p.data) :
    parseReference ("file=" ++ p ++ "#L0") = some ⟨p, some 0, false, none⟩ ∧
    ∀ (c : String) (hasDash : Bool) (tL : Option Nat) (pres : Bool),
      extractLines c (some 0) hasDash tL pres = extractLines c (some 1) hasDash tL pres := by
  constructor
  · have h := parseRef_single p ['0'] hp hdot hhash (by decide) (by decide)
    have e1 : "file=" ++ p ++ "#L" ++ String.mk ['0'] = "file=" ++ p ++ "#L0" := by
      rw [String.append_assoc ("file=" ++ p) "#L" (String.mk ['0'])]
      rfl
    rw [e1] at h
    exact h
  · intro c hasDash tL pres
    unfold extractLines
    rfl

/-- Witness for the amended C9. -/
theorem c9_amended_witness :
    parseReference ("file=" ++ "f.js" ++ "#L0") = some ⟨"f.js", some 0, false, none⟩ ∧
    ∀ (c : String) (hasDash : Bool) (tL : Option Nat) (pres : Bool),
      extractLines c (some 0) hasDash tL pres = extractLines c (some 1) hasDash tL pres :=
  c9_amended "f.js" (by decide) (by decide) (by decide)

/-! ## C7: trailing newlines of a whole-file extraction -/

theorem splitOnChar_ne_nil (sep : Char) (l : List Char) : splitOnChar sep l ≠ [] := by
  cases l with
  | nil => simp [splitOnChar]
  | cons c r =>
    by_cases hc : c = sep
    · simp [splitOnChar, hc]
    · simp only [splitOnChar, if_neg hc]
      cases splitOnChar sep r <;> simp

theorem joinWith_splitOnChar (sep : Char) (l : List Char) :
    joinWith sep (splitOnChar sep l) = l := by
  induction l with
  | nil => rfl
  | cons c r ih =>
    by_cases hc : c = sep
    · simp only [splitOnChar, if_pos hc]
      cases hS : splitOnChar sep r with
      | nil => exact absurd hS (splitOnChar_ne_nil sep r)
      | cons h t =>
        rw [hS] at ih
        show [] ++ sep :: joinWith sep (h :: t) = c :: r
        rw [List.nil_append, ih, hc]
    · simp only [splitOnChar, if_neg hc]
      cases hS : splitOnChar sep r with
      | nil => exact absurd hS (splitOnChar_ne_nil sep r)
      | cons h t =>
        rw [hS] at ih
        cases t with
        | nil =>
          show c :: h = c :: r
          rw [show (joinWith sep [h] : List Char) = h from rfl] at ih
          rw [ih]
        | cons h2 t2 =>
          show (c :: h) ++ sep :: joinWith sep (h2 :: t2) = c :: r
          rw [show (joinWith sep (h :: h2 :: t2) : List Char) =
            h ++ sep :: joinWith sep (h2 :: t2) from rfl] at ih
          rw [List.cons_append, ih]

theorem splitOnChar_concat_sep (sep : Char) (l : List Char) :
    splitOnChar sep (l ++ [sep]) = splitOnChar sep l ++ [[]] := by
  induction l with
  | nil => simp [splitOnChar]
  | cons c r ih =>
    by_cases hc : c = sep
    · rw [List.cons_append]
      simp only [splitOnChar, if_pos hc, ih]
      rw [List.cons_append]
    · rw [List.cons_append]
      simp only [splitOnChar, if_neg hc, ih]
      cases hS : splitOnChar sep r with
      | nil => exact absurd hS (splitOnChar_ne_nil sep r)
      | cons h t => simp

theorem splitOnChar_concat_getLast (sep a : Char) (l : List Char) (h : a ≠ sep) :
    ∃ m, (splitOnChar sep (l ++ [a])).getLast? = some (m ++ [a]) := by
  induction l with
  | nil =>
    refine ⟨[], ?_⟩
    simp [splitOnChar, h]
  | cons c r ih =>
    obtain ⟨m, hm⟩ := ih
    by_cases hc : c = sep
    · refine ⟨m, ?_⟩
      rw [List.cons_append]
      simp only [splitOnChar, if_pos hc]
      cases hS : splitOnChar sep (r ++ [a]) with
      | nil => exact absurd hS (splitOnChar_ne_nil _ _)
      | cons s0 S' =>
        rw [hS] at hm
        rw [List.getLast?_cons_cons]
        exact hm
    · rw [List.cons_append]
      simp only [splitOnChar, if_neg hc]
      cases hS : splitOnChar sep (r ++ [a]) with
      | nil => exact absurd hS (splitOnChar_ne_nil _ _)
      | cons s0 S' =>
        rw [hS] at hm
        cases S' with
        | nil =>
          simp only [List.getLast?_singleton, Option.some.injEq] at hm
          refine ⟨c :: m, ?_⟩
          rw [List.getLast?_singleton, hm, List.cons_append]
        | cons s1 S'' =>
          refine ⟨m, ?_⟩
          rw [List.getLast?_cons_cons]
          rw [List.getLast?_cons_cons] at hm
          exact hm

/-- C7: round-trip on a whole-file extraction.  With preserveTrailingNewline
the result is the file content itself, so the trailing-blank-line count is
preserved exactly; without it the count drops by exactly one (and a file
with no trailing blank line is returned unchanged). -/
theorem c7_roundtrip (c : String) :
    extractLines c none true none true = c ∧
    trailingNewlineCount (extractLines c none true none false) =
      trailingNewlineCount c - 1 ∧
    (trailingNewlineCount c = 0 → extractLines c none true none false = c) := by
  obtain ⟨l⟩ := c
  have hround : ∀ l₀ : List Char, String.mk (joinNl (splitNl l₀)) = String.mk l₀ :=
    fun l₀ => congrArg String.mk (joinWith_splitOnChar '\n' l₀)
  have key : trailingNewlineCount (extractLines (String.mk l) none true none false) =
      trailingNewlineCount (String.mk l) - 1 ∧
      (trailingNewlineCount (String.mk l) = 0 →
        extractLines (String.mk l) none true none false = String.mk l) := by
    rcases List.eq_nil_or_concat l with rfl | ⟨l', a, rfl⟩
    · exact ⟨by decide, fun _ => by decide⟩
    · simp only [List.concat_eq_append]
      by_cases ha : a = '\n'
      · subst ha
        have hsplit : splitNl (l' ++ ['\n']) = splitNl l' ++ [[]] :=
          splitOnChar_concat_sep '\n' l'
        have hex : extractLines (String.mk (l' ++ ['\n'])) none true none false =
            String.mk l' := by
          rw [extract_whole]
          have heff : effLines (l' ++ ['\n']) false = splitNl l' := by
            unfold effLines
            rw [if_pos ⟨by rw [hsplit, List.getLast?_concat], rfl⟩, hsplit,
              List.dropLast_concat]
          show String.mk (joinNl (effLines (l' ++ ['\n']) false)) = String.mk l'
          rw [heff]
          exact hround l'
        have hcount : trailingNewlineCount (String.mk (l' ++ ['\n'])) =
            trailingNewlineCount (String.mk l') + 1 := by
          unfold trailingNewlineCount
          show ((l' ++ ['\n']).reverse.takeWhile _).length = _
          rw [List.reverse_append]
          simp [List.takeWhile_cons]
        rw [hex, hcount]
        exact ⟨by omega, fun h => absurd h (by omega)⟩
      · obtain ⟨m, hm⟩ := splitOnChar_concat_getLast '\n' a l' ha
        have hm' : (splitNl (l' ++ [a])).getLast? = some (m ++ [a]) := hm
        have hex : extractLines (String.mk (l' ++ [a])) none true none false =
            String.mk (l' ++ [a]) := by
          rw [extract_whole]
          have heff : effLines (l' ++ [a]) false = splitNl (l' ++ [a]) := by
            unfold effLines
            rw [if_neg]
            rintro ⟨h1, -⟩
            rw [hm'] at h1
            simp at h1
          show String.mk (joinNl (effLines (l' ++ [a]) false)) = String.mk (l' ++ [a])
          rw [heff]
          exact hround (l' ++ [a])
        have hcount : trailingNewlineCount (String.mk (l' ++ [a])) = 0 := by
          unfold trailingNewlineCount
          show ((l' ++ [a]).reverse.takeWhile _).length = 0
          rw [List.reverse_append]
          simp [List.takeWhile_cons, beq_eq_false_iff_ne.mpr ha]
        rw [hex, hcount]
        exact ⟨rfl, fun _ => rfl⟩
  refine ⟨?_, key.1, key.2⟩
  rw [extract_whole]
  have heff : effLines l true = splitNl l := by
    unfold effLines
    rw [if_neg]
    rintro ⟨-, h⟩
    simp at h
  show String.mk (joinNl (effLines l true)) = String.mk l
  rw [heff]
  exact hround l

/-- Witness for C7 at a file with no trailing newline. -/
theorem c7_roundtrip_witness :
    extractLines "ab" none true none true = "ab" ∧
    trailingNewlineCount (extractLines "ab" none true none false) =
      trailingNewlineCount "ab" - 1 ∧
    extractLines "ab" none true none false = "ab" := by
  have h := c7_roundtrip "ab"
  exact ⟨h.1, h.2.1, h.2.2 (by decide)⟩

/-! ## C10: the frame property of the transformer -/

/-- C10: code blocks whose metadata contains no token starting with "file="
pass through the transformer completely unchanged, and even for blocks that
do carry one, only the value field is ever replaced: lang and meta are
preserved by every successful run. -/
theorem c10_frame (opts : CodeImportOptions) (rootDir cwd : String)
    (dirname : Option String) (fs : String → Option String) (node : Code) :
    (findFileMeta (node.meta.getD "") = none →
      processNode opts rootDir cwd dirname fs node = Except.ok node) ∧
    (∀ res, processNode opts rootDir cwd dirname fs node = Except.ok res →
      res.lang = node.lang ∧ res.meta = node.meta) := by
  constructor
  · intro h
    unfold processNode
    rw [h]
  · intro res h
    unfold processNode at h
    split at h
    · simp only [Except.ok.injEq] at h
      rw [← h]
      exact ⟨rfl, rfl⟩
    · split at h
      · simp at h
      · split at h
        · simp at h
        · split at h
          · simp at h
          · split at h
            · simp at h
            · simp only [Except.ok.injEq] at h
              rw [← h]
              exact ⟨rfl, rfl⟩

/-- Witness for C10: an unannotated block passes through unchanged, and a
rewritten block keeps its lang and meta. -/
theorem c10_frame_witness :
    processNode {} "/r" "/r" (some "/r") (fun _ => none) { meta := some "js" } =
      Except.ok { meta := some "js" } ∧
    (({ meta := some "file=f.js", value := "x" } : Code).lang =
        ({ meta := some "file=f.js" } : Code).lang ∧
      ({ meta := some "file=f.js", value := "x" } : Code).meta =
        ({ meta := some "file=f.js" } : Code).meta) := by
  constructor
  · exact (c10_frame {} "/r" "/r" (some "/r") (fun _ => none) { meta := some "js" }).1 rfl
  · exact (c10_frame {} "/r" "/r" (some "/r")
      (fun q => if q = "/r/f.js" then some "x" else none) { meta := some "file=f.js" }).2
      { meta := some "file=f.js", value := "x" } (by rfl)

/-! ## C5: when the indentation strip runs -/

/-- C5 counterexample: with removeRedundantIndentations configured, an
extraction with a line spec (here #L2-L3) is also stripped: the raw slice is
"  b\n  c" but the block value becomes "b\nc", contradicting the claim that
line-spec extractions are returned without the indentation strip. -/
theorem c5_counterexample :
    processNode { removeRedundantIndentations := true } "/r" "/r" (some "/r")
      (fun q => if q = "/r/f.js" then some "a\n  b\n  c\nd" else none)
      { meta := some "file=f.js#L2-L3" } =
      Except.ok { meta := some "file=f.js#L2-L3", value := "b\nc" } ∧
    extractLines "a\n  b\n  c\nd" (some 2) true (some 3) false = "  b\n  c" ∧
    ("b\nc" : String) ≠ "  b\n  c" := by
  refine ⟨by rfl, by rfl, by decide⟩

/-- C5 (amended): when removeRedundantIndentations is configured the
minimum-common-indentation strip is applied to every successful extraction,
whether or not the reference carries a line spec: the resulting value is
always stripIndent of the extractLines slice. -/
theorem c5_amended (opts : CodeImportOptions) (rootDir cwd : String)
    (dirname : Option String) (fs : String → Option String) (node : Code)
    (fileMeta : String) (ref : ParsedReference) (q content : String)
    (hfind : findFileMeta (node.meta.getD "") = some fileMeta)
    (hdir : dirname.getD "" ≠ "")
    (hparse : parseReference fileMeta = some ref)
    (hres : resolvePathChecked opts.allowImportingFromOutside rootDir
      (pathResolve cwd (dirname.getD "")
        (unescapeSpaces (replaceRootDirToken ref.filePath rootDir))) = Except.ok q)
    (hfs : fs q = some content)
    (hstrip : opts.removeRedundantIndentations = true) :
    processNode opts rootDir cwd dirname fs node =
      Except.ok { node with value := stripIndent (extractLines content ref.fromLine
        ref.isRange ref.toLine opts.preserveTrailingNewline) } := by
  unfold processNode
  rw [hfind]
  simp [hparse, hres, hfs, hstrip, if_neg hdir]

/-- Witness for the amended C5 at a line-spec reference. -/
theorem c5_amended_witness :
    processNode { removeRedundantIndentations := true } "/s" "/s" (some "/s")
      (fun q => if q = "/s/g.js" then some "  x\n  y\n z" else none)
      { meta := some "file=g.js#L1-L2" } =
      Except.ok ⟨none, some "file=g.js#L1-L2",
        stripIndent (extractLines "  x\n  y\n z" (some 1) true (some 2) false)⟩ :=
  c5_amended { removeRedundantIndentations := true } "/s" "/s" (some "/s")
    (fun q => if q = "/s/g.js" then some "  x\n  y\n z" else none)
    { meta := some "file=g.js#L1-L2" } "file=g.js#L1-L2" ⟨"g.js", some 1, true, some 2⟩
    "/s/g.js" "  x\n  y\n z" (by rfl) (by decide) (by rfl) (by rfl) (by rfl) rfl

/-! ## C2: the containment check of the path resolver -/

theorem splitOnChar_no_sep (sep : Char) (x : List Char) (h : sep ∉ x) :
    splitOnChar sep x = [x] := by
  induction x with
  | nil => rfl
  | cons c r ih =>
    have hc : ¬ c = sep := fun e => h (by simp [e])
    have hr : sep ∉ r := fun hm => h (List.mem_cons_of_mem _ hm)
    simp only [splitOnChar, if_neg hc, ih hr]

theorem splitOnChar_sep_append (sep : Char) (x r : List Char) (h : sep ∉ x) :
    splitOnChar sep (x ++ sep :: r) = x :: splitOnChar sep r := by
  induction x with
  | nil => simp [splitOnChar]
  | cons c x' ih =>
    have hc : ¬ c = sep := fun e => h (by simp [e])
    have hx' : sep ∉ x' := fun hm => h (List.mem_cons_of_mem _ hm)
    rw [List.cons_append]
    simp only [splitOnChar, if_neg hc, ih hx']

theorem splitOnChar_joinWith (sep : Char) (pieces : List (List Char))
    (hne : pieces ≠ []) (hfree : ∀ x ∈ pieces, sep ∉ x) :
    splitOnChar sep (joinWith sep pieces) = pieces := by
  induction pieces with
  | nil => exact absurd rfl hne
  | cons x ps ih =>
    cases ps with
    | nil =>
      show splitOnChar sep x = [x]
      exact splitOnChar_no_sep sep x (hfree x (by simp))
    | cons p2 ps2 =>
      show splitOnChar sep (x ++ sep :: joinWith sep (p2 :: ps2)) = x :: p2 :: ps2
      rw [splitOnChar_sep_append sep x _ (hfree x (by simp))]
      rw [ih (by simp) (fun y hy => hfree y (List.mem_cons_of_mem _ hy))]

theorem normAux_valid (l : List String) : ∀ acc, (∀ s ∈ l, ValidSeg s) →
    normAux acc l = acc.reverse ++ l := by
  induction l with
  | nil => intro acc _; simp [normAux]
  | cons s rest ih =>
    intro acc h
    obtain ⟨hne, hdot, hdd, -⟩ := h s (by simp)
    have hne' : s ≠ "" := fun e => hne (by rw [e])
    have hs0 : ¬(s = "" ∨ s = ".") := by
      rintro (rfl | rfl)
      · exact hne' rfl
      · exact hdot rfl
    simp only [normAux, if_neg hs0, if_neg hdd]
    rw [ih (s :: acc) (fun u hu => h u (List.mem_cons_of_mem _ hu))]
    simp

theorem absOfSegs_ne_empty (f : List String) : absOfSegs f ≠ "" := by
  intro e
  have h : (absOfSegs f).data = ("" : String).data := by rw [e]
  simp [absOfSegs] at h

theorem normSegments_absOfSegs (t : List String) (ht : ∀ s ∈ t, ValidSeg s) :
    normSegments (absOfSegs t) = t := by
  cases t with
  | nil => rfl
  | cons s ts =>
    show normAux []
      ((splitOnChar '/' ('/' :: joinWith '/' ((s :: ts).map String.data))).map String.mk) =
      s :: ts
    rw [show splitOnChar '/' ('/' :: joinWith '/' ((s :: ts).map String.data)) =
        [] :: splitOnChar '/' (joinWith '/' ((s :: ts).map String.data)) from by
      simp [splitOnChar]]
    rw [splitOnChar_joinWith '/' _ (by simp) (fun x hx => by
      obtain ⟨u, hu, rfl⟩ := List.mem_map.mp hx
      exact (ht u hu).2.2.2)]
    rw [List.map_cons, List.map_map]
    rw [show (s :: ts).map (String.mk ∘ String.data) = s :: ts from by
      simp [Function.comp_def, mk_data]]
    show normAux [] ("" :: s :: ts) = s :: ts
    rw [show normAux [] ("" :: s :: ts) = normAux [] (s :: ts) from by
      simp [normAux]]
    rw [normAux_valid (s :: ts) [] ht]
    simp

theorem cpl_nil_left (t : List String) : commonPrefixLen [] t = 0 := by
  cases t <;> rfl

theorem cpl_nil_right (f : List String) : commonPrefixLen f [] = 0 := by
  cases f <;> rfl

theorem cpl_cons_eq (a : String) (as bs : List String) :
    commonPrefixLen (a :: as) (a :: bs) = commonPrefixLen as bs + 1 := by
  simp [commonPrefixLen]

theorem cpl_cons_ne (a b : String) (as bs : List String) (h : a ≠ b) :
    commonPrefixLen (a :: as) (b :: bs) = 0 := by
  simp [commonPrefixLen, h]

theorem cpl_le_left (f t : List String) : commonPrefixLen f t ≤ f.length := by
  induction f generalizing t with
  | nil => simp [cpl_nil_left]
  | cons a as ih =>
    cases t with
    | nil => simp [cpl_nil_right]
    | cons b bs =>
      by_cases hab : a = b
      · subst hab
        rw [cpl_cons_eq, List.length_cons]
        have := ih bs; omega
      · rw [cpl_cons_ne a b as bs hab]; omega

theorem cpl_le_right (f t : List String) : commonPrefixLen f t ≤ t.length := by
  induction f generalizing t with
  | nil => simp [cpl_nil_left]
  | cons a as ih =>
    cases t with
    | nil => simp [cpl_nil_right]
    | cons b bs =>
      by_cases hab : a = b
      · subst hab
        rw [cpl_cons_eq, List.length_cons]
        have := ih bs; omega
      · rw [cpl_cons_ne a b as bs hab]; omega

theorem cpl_comm (f t : List String) : commonPrefixLen f t = commonPrefixLen t f := by
  induction f generalizing t with
  | nil => simp [cpl_nil_left, cpl_nil_right]
  | cons a as ih =>
    cases t with
    | nil => simp [cpl_nil_left, cpl_nil_right]
    | cons b bs =>
      by_cases hab : a = b
      · subst hab
        rw [cpl_cons_eq, cpl_cons_eq, ih bs]
      · rw [cpl_cons_ne a b as bs hab, cpl_cons_ne b a bs as (fun e => hab e.symm)]

theorem cpl_eq_len_iff (f t : List String) :
    commonPrefixLen f t = f.length ↔ t.take f.length = f := by
  induction f generalizing t with
  | nil => simp [cpl_nil_left]
  | cons a as ih =>
    cases t with
    | nil =>
      rw [cpl_nil_right]
      simp only [List.length_cons, List.take_nil]
      constructor
      · intro h; omega
      · intro h; exact absurd h (by simp)
    | cons b bs =>
      by_cases hab : a = b
      · subst hab
        rw [cpl_cons_eq, List.length_cons, List.take_succ_cons]
        constructor
        · intro h
          rw [(ih bs).mp (by omega)]
        · intro h
          simp only [List.cons.injEq, true_and] at h
          have := (ih bs).mpr h
          omega
      · rw [cpl_cons_ne a b as bs hab]
        simp only [List.length_cons, List.take_succ_cons]
        constructor
        · intro h; exact absurd h (by omega)
        · intro h
          simp only [List.cons.injEq] at h
          exact absurd h.1.symm hab

theorem cpl_take (f t : List String) :
    f.take (commonPrefixLen f t) = t.take (commonPrefixLen f t) := by
  induction f generalizing t with
  | nil => simp [cpl_nil_left]
  | cons a as ih =>
    cases t with
    | nil => simp [cpl_nil_right]
    | cons b bs =>
      by_cases hab : a = b
      · subst hab
        rw [cpl_cons_eq, List.take_succ_cons, List.take_succ_cons, ih bs]
      · rw [cpl_cons_ne a b as bs hab]
        simp

theorem dotdotslash_not_prefixOf (x r : List Char) (hne : x ≠ [])
    (hdot : x ≠ ['.']) (hdd : x ≠ ['.', '.']) (hs : '/' ∉ x)
    (hr : r = [] ∨ ∃ r', r = '/' :: r') :
    List.isPrefixOf ['.', '.', '/'] (x ++ r) = false := by
  match x, hne, hdot, hdd with
  | [a], _, hdot, _ =>
    rcases hr with rfl | ⟨r', rfl⟩
    · simp [List.isPrefixOf]
    · have hdot' : ¬ ('.' == a && true) = true := by
        intro hcontra
        simp only [Bool.and_true, beq_iff_eq] at hcontra
        exact hdot (by rw [← hcontra])
      simp [List.isPrefixOf]
  | [a, b], _, _, hdd =>
    rcases hr with rfl | ⟨r', rfl⟩
    · simp [List.isPrefixOf]
    · by_cases ha : a = '.'
      · by_cases hb : b = '.'
        · exact absurd (by rw [ha, hb]) hdd
        · have : ('.' == b) = false := beq_eq_false_iff_ne.mpr (fun e => hb e.symm)
          simp [List.isPrefixOf, this]
      · have : ('.' == a) = false := beq_eq_false_iff_ne.mpr (fun e => ha e.symm)
        simp [List.isPrefixOf, this]
  | a :: b :: c2 :: rest, _, _, _ =>
    have hc2 : c2 ≠ '/' := fun e => hs (by simp [e])
    have : ('/' == c2) = false := beq_eq_false_iff_ne.mpr (fun e => hc2 e.symm)
    simp [List.isPrefixOf, this]

theorem slash_not_prefixOf (x r : List Char) (hne : x ≠ []) (hs : '/' ∉ x) :
    List.isPrefixOf ['/'] (x ++ r) = false := by
  match x, hne with
  | a :: x', _ =>
    have ha : a ≠ '/' := fun e => hs (by simp [e])
    have : ('/' == a) = false := beq_eq_false_iff_ne.mpr (fun e => ha e.symm)
    simp [List.isPrefixOf, this]

theorem flags_false_of_pieces (pieces : List (List Char))
    (h : ∀ x ∈ pieces, x ≠ [] ∧ x ≠ ['.'] ∧ x ≠ ['.', '.'] ∧ '/' ∉ x) :
    List.isPrefixOf ['.', '.', '/'] (joinWith '/' pieces) = false ∧
    List.isPrefixOf ['/'] (joinWith '/' pieces) = false := by
  cases pieces with
  | nil => exact ⟨rfl, rfl⟩
  | cons x ps =>
    obtain ⟨hne, hdot, hdd, hs⟩ := h x (by simp)
    have hjoin : ∃ r, joinWith '/' (x :: ps) = x ++ r ∧ (r = [] ∨ ∃ r', r = '/' :: r') := by
      cases ps with
      | nil => exact ⟨[], by simp [joinWith], Or.inl rfl⟩
      | cons p2 ps2 => exact ⟨'/' :: joinWith '/' (p2 :: ps2), rfl, Or.inr ⟨_, rfl⟩⟩
    obtain ⟨r, hj, hr⟩ := hjoin
    rw [hj]
    exact ⟨dotdotslash_not_prefixOf x r hne hdot hdd hs hr,
      slash_not_prefixOf x r hne hs⟩

theorem dotdotslash_prefixOf_join (p2 : List Char) (ps : List (List Char)) :
    List.isPrefixOf ['.', '.', '/'] (joinWith '/' (['.', '.'] :: p2 :: ps)) = true := by
  show List.isPrefixOf ['.', '.', '/'] (['.', '.'] ++ '/' :: joinWith '/' (p2 :: ps)) = true
  simp [List.isPrefixOf]

theorem pieces_valid (t : List String) (ht : ∀ s ∈ t, ValidSeg s) :
    ∀ x ∈ t.map String.data, x ≠ [] ∧ x ≠ ['.'] ∧ x ≠ ['.', '.'] ∧ '/' ∉ x := by
  intro x hx
  obtain ⟨u, hu, rfl⟩ := List.mem_map.mp hx
  obtain ⟨h1, h2, h3, h4⟩ := ht u hu
  refine ⟨h1, ?_, ?_, h4⟩
  · intro e; exact h2 (by rw [← mk_data u, e])
  · intro e; exact h3 (by rw [← mk_data u, e])

theorem pathRelative_absOfSegs (f t : List String) (hf : ∀ s ∈ f, ValidSeg s)
    (ht : ∀ s ∈ t, ValidSeg s) :
    pathRelative (absOfSegs f) (absOfSegs t) =
      String.mk (joinWith '/'
        (List.replicate (f.length - commonPrefixLen f t) ['.', '.'] ++
          (t.drop (commonPrefixLen f t)).map String.data)) := by
  unfold pathRelative
  rw [normSegments_absOfSegs f hf, normSegments_absOfSegs t ht]

theorem outsideRootCheck_absOfSegs (f t : List String) (hf : ∀ s ∈ f, ValidSeg s)
    (ht : ∀ s ∈ t, ValidSeg s) :
    outsideRootCheck (absOfSegs f) (absOfSegs t) =
      (List.isPrefixOf ['.', '.', '/'] (joinWith '/'
          (List.replicate (f.length - commonPrefixLen f t) ['.', '.'] ++
            (t.drop (commonPrefixLen f t)).map String.data)) ||
        List.isPrefixOf ['/'] (joinWith '/'
          (List.replicate (f.length - commonPrefixLen f t) ['.', '.'] ++
            (t.drop (commonPrefixLen f t)).map String.data))) := by
  unfold outsideRootCheck
  rw [pathRelative_absOfSegs f t hf ht, decide_eq_false (absOfSegs_ne_empty f),
    Bool.false_or]
  rfl

theorem resolvePathChecked_false (root p : String) : resolvePathChecked false root p =
    if outsideRootCheck root p then
      Except.error (TransformError.outsideRoot p root)
    else Except.ok p := rfl

/-- C2 counterexample: rootDir "/a/b", resolved path "/a".  Reaching "/a"
from "/a/b" requires a parent-directory traversal segment (path.relative
returns exactly ".."), yet the containment check passes, because ".." does
not start with "../" and is not an absolute path, so resolution succeeds
instead of failing with OutsideRootError. -/
theorem c2_counterexample :
    pathRelative "/a/b" "/a" = ".." ∧
    resolvePathChecked false "/a/b" "/a" = Except.ok "/a" := by
  constructor <;> rfl

/-- C2 (amended): with allowImportingFromOutside false, for normalized
absolute paths (given as valid segment lists): a path equal to or descending
from rootDir passes the check and is returned unchanged; a path outside
rootDir fails with OutsideRootError naming the path and the root — except
for the direct parent directory of rootDir, whose relative path is exactly
".." (no trailing separator), which the check erroneously accepts. -/
theorem c2_amended (f t : List String) (hf : ∀ s ∈ f, ValidSeg s)
    (ht : ∀ s ∈ t, ValidSeg s) :
    (t.take f.length = f →
      resolvePathChecked false (absOfSegs f) (absOfSegs t) =
        Except.ok (absOfSegs t)) ∧
    (t.take f.length ≠ f → t ≠ f.dropLast →
      resolvePathChecked false (absOfSegs f) (absOfSegs t) =
        Except.error (TransformError.outsideRoot (absOfSegs t) (absOfSegs f))) ∧
    (f ≠ [] → t = f.dropLast →
      resolvePathChecked false (absOfSegs f) (absOfSegs t) =
        Except.ok (absOfSegs t)) := by
  have hcheck := outsideRootCheck_absOfSegs f t hf ht
  refine ⟨?_, ?_, ?_⟩
  · intro htake
    have hc : commonPrefixLen f t = f.length := (cpl_eq_len_iff f t).mpr htake
    rw [resolvePathChecked_false, hcheck, hc, Nat.sub_self, List.replicate_zero,
      List.nil_append]
    have hflags := flags_false_of_pieces ((t.drop f.length).map String.data)
      (pieces_valid (t.drop f.length) (fun s hs => ht s (List.mem_of_mem_drop hs)))
    rw [hflags.1, hflags.2]
    rfl
  · intro hntake hndrop
    have hclt : commonPrefixLen f t < f.length :=
      lt_of_le_of_ne (cpl_le_left f t) (fun e => hntake ((cpl_eq_len_iff f t).mp e))
    have hnotParent : ¬(f.length - commonPrefixLen f t = 1 ∧
        t.drop (commonPrefixLen f t) = []) := by
      rintro ⟨hk1, hd⟩
      have hct : commonPrefixLen f t = t.length := by
        have h1 : t.length ≤ commonPrefixLen f t := by
          by_contra hlt
          have : t.drop (commonPrefixLen f t) ≠ [] := by
            apply List.ne_nil_of_length_pos
            rw [List.length_drop]
            omega
          exact this hd
        have h2 := cpl_le_right f t
        omega
      have hteq : t = f.dropLast := by
        have htake1 : t.take (commonPrefixLen f t) = t := by
          rw [hct, List.take_length]
        have htake2 : f.take (commonPrefixLen f t) = t := by
          rw [cpl_take f t, htake1]
        rw [List.dropLast_eq_take, ← htake2]
        congr 1
        omega
      exact hndrop hteq
    have hshape : ∃ p2 ps,
        List.replicate (f.length - commonPrefixLen f t) ['.', '.'] ++
          (t.drop (commonPrefixLen f t)).map String.data = ['.', '.'] :: p2 :: ps := by
      have hk : 1 ≤ f.length - commonPrefixLen f t := by omega
      rw [show f.length - commonPrefixLen f t =
        (f.length - commonPrefixLen f t - 1) + 1 by omega, List.replicate_succ,
        List.cons_append]
      cases hrest : List.replicate (f.length - commonPrefixLen f t - 1) ['.', '.'] ++
          (t.drop (commonPrefixLen f t)).map String.data with
      | nil =>
        rw [List.append_eq_nil] at hrest
        obtain ⟨hr1, hr2⟩ := hrest
        have hk1 : f.length - commonPrefixLen f t - 1 = 0 := by
          have hlen := congrArg List.length hr1
          simpa using hlen
        have hd0 : t.drop (commonPrefixLen f t) = [] := by
          have hlen := congrArg List.length hr2
          simp only [List.length_map, List.length_nil] at hlen
          exact List.eq_nil_of_length_eq_zero hlen
        exact absurd ⟨by omega, hd0⟩ hnotParent
      | cons p2 ps => exact ⟨p2, ps, rfl⟩
    obtain ⟨p2, ps, hps⟩ := hshape
    rw [resolvePathChecked_false, hcheck, hps, dotdotslash_prefixOf_join p2 ps,
      Bool.true_or]
    rfl
  · intro hfne hdrop
    subst hdrop
    have hc : commonPrefixLen f f.dropLast = f.dropLast.length := by
      rw [cpl_comm]
      apply (cpl_eq_len_iff f.dropLast f).mpr
      rw [List.dropLast_eq_take, List.length_take]
      have : min (f.length - 1) f.length = f.length - 1 := by omega
      rw [this]
    have hflen : f.length = f.dropLast.length + 1 := by
      rw [List.length_dropLast]
      have := List.length_pos.mpr hfne
      omega
    rw [resolvePathChecked_false, hcheck, hc]
    rw [show f.length - f.dropLast.length = 1 by omega]
    rw [List.drop_length, List.map_nil]
    rw [show (List.replicate 1 ['.', '.'] ++ ([] : List (List Char))) = [['.', '.']] by rfl]
    rfl

/-- Witness for the amended C2 at concrete segment lists. -/
theorem c2_amended_witness :
    resolvePathChecked false (absOfSegs ["a"]) (absOfSegs ["a", "b"]) =
      Except.ok (absOfSegs ["a", "b"]) ∧
    resolvePathChecked false (absOfSegs ["a", "b"]) (absOfSegs ["c"]) =
      Except.error (TransformError.outsideRoot (absOfSegs ["c"]) (absOfSegs ["a", "b"])) ∧
    resolvePathChecked false (absOfSegs ["a", "b"]) (absOfSegs ["a"]) =
      Except.ok (absOfSegs ["a"]) := by
  refine ⟨?_, ?_, ?_⟩
  · exact (c2_amended ["a"] ["a", "b"] (by decide) (by decide)).1 (by decide)
  · exact (c2_amended ["a", "b"] ["c"] (by decide) (by decide)).2.1 (by decide) (by decide)
  · exact (c2_amended ["a", "b"] ["a"] (by decide) (by decide)).2.2 (by decide) (by decide)

end RemarkCodeImport
